import Mathlib

/-!
Verification of the entity-resolution core of the Lexicon repository
(`src/pipelines/entity_resolution.py`, `src/models/lsr.py`,
`src/utils/phonetics.py`, `src/adapters/base.py`).

Modelling conventions:
* Python strings are modelled as `List Char` (one element per code point).
* Python `float` arithmetic is modelled with exact rationals `ℚ`; the scores
  involved are small sums/quotients where the spec's statements are about the
  real-number values.
* `UUID` values are modelled as `ℕ` (opaque identifiers).
* `datetime` timestamps are modelled as an opaque `ℕ` supplied by the caller.
* Unicode case folding (`str.lower`) and diacritic stripping
  (`PhoneticUtils.strip_diacritics`, which uses Unicode NFKD tables) are
  environment functions; they are abstracted as parameters (`PyStr`), so every
  theorem quantifying over them covers the real functions.
* CPython iterates a `set` in an unspecified (hash-dependent) order.  Where
  the code materialises a set into a list (`list(set(...))` in
  `LSR.merge_with` and in `EntityResolver._retrieve_candidates`) the
  enumeration is taken as a parameter constrained only to produce a
  duplicate-free list with the same elements; claims are settled for every
  admissible enumeration.
-/

namespace Lexicon

/-- Python strings, one entry per code point. -/
abbrev Str := List Char

/-! ## `PhoneticUtils.levenshtein_distance` (src/utils/phonetics.py)

The source computes the classic single-row dynamic-programming edit
distance.  `rowAux` is the inner `for j, c2 in enumerate(s2)` loop
(`left` is the last element appended to `current_row`), `levLoop` is the
outer `for i, c1 in enumerate(s1)` loop, and `levCore` is the function
body after the initial swap. -/

/-- Inner loop of the DP: given the remaining characters of `s2`, the
corresponding tail of `previous_row` and the last cell of `current_row`,
produce the remaining cells of `current_row`.
`insertions = previous_row[j+1] + 1`, `deletions = current_row[j] + 1`,
`substitutions = previous_row[j] + (c1 != c2)`. -/
def rowAux (c1 : Char) : Str → List ℕ → ℕ → List ℕ
  | c2 :: rest, p0 :: p1 :: ps, left =>
      let cell := min (min (p1 + 1) (left + 1)) (p0 + (if c1 = c2 then 0 else 1))
      cell :: rowAux c1 rest (p1 :: ps) cell
  | _, _, _ => []

/-- Outer loop of the DP: `i` counts the characters of `s1` already
processed; each iteration starts `current_row` with `[i + 1]` and replaces
`previous_row` with it. -/
def levLoop (s2 : Str) : Str → List ℕ → ℕ → List ℕ
  | [], prev, _ => prev
  | c1 :: s1rest, prev, i => levLoop s2 s1rest ((i + 1) :: rowAux c1 s2 prev (i + 1)) (i + 1)

/-- Body of `levenshtein_distance` after the swap: handle `len(s2) == 0`,
otherwise run the row loop starting from `previous_row = range(len(s2)+1)`
and return `previous_row[-1]`. -/
def levCore (s1 s2 : Str) : ℕ :=
  if s2.length = 0 then s1.length
  else (levLoop s2 s1 (List.range (s2.length + 1)) 0).getLastD 0

/-- `PhoneticUtils.levenshtein_distance`: the source first swaps the
arguments when `len(s1) < len(s2)` (a single tail call), then runs the DP. -/
def levenshtein_distance (s1 s2 : Str) : ℕ :=
  if s1.length < s2.length then levCore s2 s1 else levCore s1 s2

/-! ## Data model (src/models/lsr.py, src/adapters/base.py)

`UUID` is modelled as `ℕ`, `datetime` as `ℕ`, `float` as `ℚ`.
The opaque passthrough payloads (`raw_data`, the raw `attestations` /
`related_forms` dictionaries of `RawLexicalEntry`) are never read by the
resolver and are omitted. -/

/-- `DateSource` enum from src/models/lsr.py. -/
inductive DateSource where
  | ATTESTED | INTERPOLATED | RECONSTRUCTED
deriving DecidableEq

/-- `Register` enum from src/models/lsr.py. -/
inductive Register where
  | FORMAL | COLLOQUIAL | TECHNICAL | SACRED | LITERARY | SLANG
deriving DecidableEq

/-- `Attestation` model from src/models/lsr.py. -/
structure Attestation where
  id : ℕ
  lsr_id : Option ℕ := none
  text_excerpt : Str := []
  text_source : Str := []
  text_date : Option Int := none
  text_date_confidence : ℚ := 1
  page_reference : Str := []
  url : Option Str := none
deriving DecidableEq

/-- `LSR` model from src/models/lsr.py (all fields). -/
structure LSR where
  id : ℕ
  version : ℕ := 1
  created_at : ℕ := 0
  updated_at : ℕ := 0
  form_orthographic : Str := []
  form_phonetic : Str := []
  form_normalized : Str := []
  language_code : Str := []
  language_name : Str := []
  language_family : Str := []
  language_branch : List Str := []
  period_label : Str := []
  date_start : Option Int := none
  date_end : Option Int := none
  date_confidence : ℚ := 1
  date_source : DateSource := .ATTESTED
  semantic_vector : List ℚ := []
  semantic_fields : List Str := []
  definition_primary : Str := []
  definitions_alternate : List Str := []
  conceptual_domain : List Str := []
  register : Option Register := none
  frequency_score : ℚ := 0
  frequency_source : Str := []
  part_of_speech : List Str := []
  attestations : List Attestation := []
  ancestor_ids : List ℕ := []
  descendant_ids : List ℕ := []
  cognate_ids : List ℕ := []
  loan_source_id : Option ℕ := none
  loan_target_ids : List ℕ := []
  reconstruction_flag : Bool := false
  confidence_overall : ℚ := 1
  source_databases : List Str := []
  human_validated : Bool := false
  validation_notes : Str := []
deriving DecidableEq

/-- `RawLexicalEntry` from src/adapters/base.py (resolver-relevant fields;
`attestations`, `related_forms` and `raw_data` are opaque payloads the
resolver never reads). -/
structure RawLexicalEntry where
  source_id : Str
  source_name : Str
  form : Str
  form_phonetic : Str := []
  language : Str
  language_code : Str := []
  etymology : Option Str := none
  definitions : List Str := []
  part_of_speech : List Str := []
  date_attested : Option Int := none
deriving DecidableEq

/-- `ResolutionAction` enum from src/pipelines/entity_resolution.py. -/
inductive ResolutionAction where
  | auto_merge | merge_with_flag | flag_for_review | create_new
deriving DecidableEq

/-- The five feature scores produced by `_calculate_similarity` (the
`features` dict always holds exactly these five keys). -/
structure Feats where
  form_exact : ℚ
  form_fuzzy : ℚ
  semantic : ℚ
  date_overlap : ℚ
  source_agreement : ℚ
deriving DecidableEq

/-- `ResolutionResult` from src/pipelines/entity_resolution.py.  The
`feature_scores` dict is either the default `{}` (modelled `none`) or the
five computed features; the never-assigned `merge_log` field is omitted. -/
structure ResolutionResult where
  action : ResolutionAction
  existing_id : Option ℕ := none
  similarity_score : ℚ := 0
  feature_scores : Option Feats := none
  issues : List Str := []
deriving DecidableEq

/-- `SimilarityWeights` with its default values. -/
structure SimilarityWeights where
  form_exact : ℚ := 3/10
  form_fuzzy : ℚ := 2/10
  semantic : ℚ := 3/10
  date_overlap : ℚ := 1/10
  source_agreement : ℚ := 1/10
deriving DecidableEq

/-- `EntityResolver.__init__` configuration (thresholds and weights with
their default values). -/
structure ResolverConfig where
  auto_merge_threshold : ℚ := 95/100
  merge_with_flag_threshold : ℚ := 85/100
  review_threshold : ℚ := 70/100
  weights : SimilarityWeights := {}
deriving DecidableEq

/-- Environment string functions: `normalizeForm` is
`PhoneticUtils.strip_diacritics(s.lower())` (Unicode NFKD tables), `lower`
is bare `str.lower()`.  Both are abstracted; theorems hold for every
instantiation. -/
structure PyStr where
  normalizeForm : Str → Str
  lower : Str → Str

/-! ## Similarity scorer (`EntityResolver._calculate_similarity`) -/

/-- `" ".join(defs)`. -/
def joinSpace : List Str → Str
  | [] => []
  | [x] => x
  | x :: xs => x ++ ' ' :: joinSpace xs

/-- Python `str.split()` with no argument: split on runs of whitespace,
discarding empty pieces (`cur` accumulates the current word reversed). -/
def splitWsAux (cur : Str) : Str → List Str
  | [] => if cur = [] then [] else [cur.reverse]
  | c :: rest =>
      if c.isWhitespace then
        if cur = [] then splitWsAux [] rest else cur.reverse :: splitWsAux [] rest
      else splitWsAux (c :: cur) rest

def splitWs (s : Str) : List Str := splitWsAux [] s

/-- `set(s.split())`. -/
def wordSet (s : Str) : Finset Str := (splitWs s).toFinset

/-- The `semantic` feature: word-overlap Jaccard of the joined, lowered
definitions, `0.5` when either side has no definition text (Python
truthiness of the list / string), `0.0` when either word set is empty. -/
def semanticFeature (P : PyStr) (defs : List Str) (primary : Str) : ℚ :=
  if defs ≠ [] ∧ primary ≠ [] then
    if wordSet (P.lower (joinSpace defs)) ≠ ∅ ∧ wordSet (P.lower primary) ≠ ∅ then
      if 0 < (wordSet (P.lower (joinSpace defs)) ∪ wordSet (P.lower primary)).card then
        ((wordSet (P.lower (joinSpace defs)) ∩ wordSet (P.lower primary)).card : ℚ) /
          ((wordSet (P.lower (joinSpace defs)) ∪ wordSet (P.lower primary)).card : ℚ)
      else 0
    else 0
  else 1/2

/-- The `date_overlap` feature.  The source guards with
`if entry.date_attested and candidate.date_start and candidate.date_end:`,
so a `None` **or zero** value on either side selects the neutral `0.5`
branch (Python truthiness of `int`). -/
def dateOverlapFeature : Option Int → Option Int → Option Int → ℚ
  | some d, some s, some e =>
      if d ≠ 0 ∧ s ≠ 0 ∧ e ≠ 0 then
        if s ≤ d ∧ d ≤ e then 1
        else max 0 (1 - ((min (d - s).natAbs (d - e).natAbs : ℚ)) / 100)
      else 1/2
  | _, _, _ => 1/2

/-- The `form_fuzzy` feature: `max(0, 1 - distance / max(len(a), len(b), 1))`. -/
def formFuzzyFeature (a b : Str) : ℚ :=
  let d := levenshtein_distance a b
  let m := max (max a.length b.length) 1
  max 0 (1 - (d : ℚ) / (m : ℚ))

/-- `EntityResolver._calculate_similarity`: the five features and the
weighted total. -/
def calcSimilarity (P : PyStr) (w : SimilarityWeights) (entry : RawLexicalEntry)
    (cand : LSR) : ℚ × Feats :=
  let en := P.normalizeForm entry.form
  let fe : ℚ := if en = cand.form_normalized then 1 else 0
  let ff := formFuzzyFeature en cand.form_normalized
  let se := semanticFeature P entry.definitions cand.definition_primary
  let dd := dateOverlapFeature entry.date_attested cand.date_start cand.date_end
  let sa : ℚ := if entry.source_name ∈ cand.source_databases then 1 else 0
  (fe * w.form_exact + ff * w.form_fuzzy + se * w.semantic +
     dd * w.date_overlap + sa * w.source_agreement,
   ⟨fe, ff, se, dd, sa⟩)

/-! ## Merge operation (`LSR.merge_with`, src/models/lsr.py)

`list(set(...))` enumerates a Python set in an unspecified hash-dependent
order; the enumeration is abstracted as a parameter `pySet`, constrained in
theorems to produce a duplicate-free list with the same elements.
`datetime.now()` is abstracted as the `now` argument. -/

/-- Contract of CPython's `list(set(l))`: some duplicate-free list with
exactly the elements of `l`, in an unspecified order. -/
def PySetValid (pySet : List Str → List Str) : Prop :=
  ∀ l, (pySet l).Nodup ∧ (pySet l).toFinset = l.toFinset

/-- One admissible realisation of `list(set(l))`: first-occurrence
deduplication (`seen` accumulates emitted elements). -/
def firstDedupAux (seen : List Str) : List Str → List Str
  | [] => []
  | x :: xs => if x ∈ seen then firstDedupAux seen xs
               else x :: firstDedupAux (x :: seen) xs

def firstDedup (l : List Str) : List Str := firstDedupAux [] l

/-- Another admissible realisation: the same elements in reversed order
(used to exhibit an order-dependent counterexample). -/
def revDedup (l : List Str) : List Str := (firstDedup l).reverse

/-- `LSR.update_confidence`: unweighted average of the applicable factors,
appended in source order. -/
def updateConfidence (l : LSR) : LSR :=
  let factors : List ℚ :=
    [l.date_confidence] ++
    [if l.attestations ≠ [] then
        min 1 ((l.attestations.length : ℚ) * (1/10) + 1/2)
      else 3/10] ++
    (if l.reconstruction_flag then [3/5] else []) ++
    (if l.human_validated then [1] else [])
  { l with confidence_overall := factors.sum / (factors.length : ℚ) }

/-- `LSR.merge_with(other)`: attestation union by id (membership tested
against the pre-merge id set), date-range expansion, source-database set
union via `list(set(self + other))`, alternate-definition append filtered
against the pre-merge alternates and the primary, version increment,
timestamp update, confidence recomputation.  Only fields of `self`
(the target) are assigned; `other` is only read. -/
def mergeWith (pySet : List Str → List Str) (now : ℕ) (t s : LSR) : LSR :=
  updateConfidence
    { t with
      attestations := t.attestations ++
        s.attestations.filter (fun a => decide (a.id ∉ t.attestations.map (·.id))),
      date_start :=
        match s.date_start, t.date_start with
        | some o, none => some o
        | some o, some m => if o < m then some o else some m
        | none, _ => t.date_start,
      date_end :=
        match s.date_end, t.date_end with
        | some o, none => some o
        | some o, some m => if m < o then some o else some m
        | none, _ => t.date_end,
      source_databases := pySet (t.source_databases ++ s.source_databases),
      definitions_alternate := t.definitions_alternate ++
        s.definitions_alternate.filter
          (fun d => decide (d ∉ t.definitions_alternate ∧ d ≠ t.definition_primary)),
      version := t.version + 1,
      updated_at := now }

/-- State-pair form of the method call `target.merge_with(source)`: the
Python body contains no assignment to `other`, so the source component is
returned unchanged. -/
def mergeWithPair (pySet : List Str → List Str) (now : ℕ) (ts : LSR × LSR) :
    LSR × LSR :=
  (mergeWith pySet now ts.1 ts.2, ts.2)

/-- The `date_end >= date_start` invariant enforced by
`LSR.validate_date_range` (vacuous unless both bounds are set). -/
def dateOk (l : LSR) : Bool :=
  match l.date_start, l.date_end with
  | some a, some b => a ≤ b
  | _, _ => true

/-! ## Candidate index and resolver (src/pipelines/entity_resolution.py) -/

/-- The LSR store (`dict[UUID, LSR]`), as an insertion-ordered association
list with unique keys. -/
abbrev LsrStore := List (ℕ × LSR)

/-- `self._lsr_store.get(candidate_id)`. -/
def lookupStore (store : LsrStore) (id : ℕ) : Option LSR :=
  (store.find? (fun p => p.1 == id)).map (·.2)

/-- `f"{lsr.form_normalized}:{lsr.language_code}"`. -/
def indexKey (lsr : LSR) : Str := lsr.form_normalized ++ ':' :: lsr.language_code

/-- Insert into the form index dict: append the id under an existing key,
or add a new key at the end (dict insertion order). -/
def indexInsert (idx : List (Str × List ℕ)) (key : Str) (id : ℕ) :
    List (Str × List ℕ) :=
  match idx with
  | [] => [(key, [id])]
  | (k, ids) :: rest =>
      if k = key then (k, ids ++ [id]) :: rest
      else (k, ids) :: indexInsert rest key id

/-- `EntityResolver._rebuild_index`. -/
def buildIndex (store : LsrStore) : List (Str × List ℕ) :=
  store.foldl (fun idx p => indexInsert idx (indexKey p.2) p.1) []

/-- `key.rsplit(":", 1)`: split at the last colon.  Keys built by
`buildIndex` always contain a colon; the fallback is never reached for
them. -/
def rsplitColonAux : Str → Option (Str × Str)
  | [] => none
  | c :: rest =>
      match rsplitColonAux rest with
      | some (a, b) => some (c :: a, b)
      | none => if c = ':' then some ([], rest) else none

def rsplitColon (s : Str) : Str × Str := (rsplitColonAux s).getD (s, [])

/-- `entry.language_code or entry.language[:3].lower()` (Python `or`:
the empty string is falsy). -/
def entryLang (P : PyStr) (e : RawLexicalEntry) : Str :=
  if e.language_code ≠ [] then e.language_code else P.lower (e.language.take 3)

/-- One step of the fuzzy scan (`for key, ids in self._form_index.items()`):
parse the key with `rsplit(":", 1)`, skip other languages, include the ids
when the edit distance is at most 2. -/
def fuzzyStep (lang fn : Str) (acc : List ℕ) (kv : Str × List ℕ) : List ℕ :=
  if (rsplitColon kv.1).2 = lang ∧ levenshtein_distance fn (rsplitColon kv.1).1 ≤ 2
  then acc ++ kv.2 else acc

/-- `EntityResolver._retrieve_candidates`: exact key lookup, then a fuzzy
scan of every indexed key in the same language with edit distance ≤ 2.
The accumulated Python `set` is materialised by `list(set(...))`; here it
is realised as first-occurrence deduplication — the claims settled through
`resolve` do not depend on this order (C2 is settled for an arbitrary
candidate order via `resolveOn`). -/
def retrieveCandidates (P : PyStr) (index : List (Str × List ℕ))
    (entry : RawLexicalEntry) : List ℕ :=
  let fn := P.normalizeForm entry.form
  let lang := entryLang P entry
  let exact : List ℕ :=
    (((index.find? (fun kv => kv.1 == fn ++ ':' :: lang)).map (·.2)).getD [])
  let fuzzy : List ℕ := index.foldl (fuzzyStep lang fn) []
  (exact ++ fuzzy).foldl (fun acc id => if id ∈ acc then acc else acc ++ [id]) []

/-- Steps 2–3 of `EntityResolver.resolve` for a given candidate list:
track the best-scoring candidate (`score > best` keeps the first seen on
ties), then apply the ordered thresholds; `CREATE_NEW` clears the match
id. -/
def scanStep (P : PyStr) (w : SimilarityWeights) (store : LsrStore)
    (entry : RawLexicalEntry) (best : Option ℕ × ℚ × Option Feats) (cid : ℕ) :
    Option ℕ × ℚ × Option Feats :=
  match lookupStore store cid with
  | none => best
  | some cand =>
      let sf := calcSimilarity P w entry cand
      if best.2.1 < sf.1 then (some cid, sf.1, some sf.2) else best

def scanCandidates (P : PyStr) (w : SimilarityWeights) (store : LsrStore)
    (entry : RawLexicalEntry) (candidates : List ℕ) :
    Option ℕ × ℚ × Option Feats :=
  candidates.foldl (scanStep P w store entry) (none, 0, none)

def resolveOn (P : PyStr) (cfg : ResolverConfig) (store : LsrStore)
    (entry : RawLexicalEntry) (candidates : List ℕ) : ResolutionResult :=
  let best := scanCandidates P cfg.weights store entry candidates
  if cfg.auto_merge_threshold ≤ best.2.1 then
    { action := .auto_merge, existing_id := best.1,
      similarity_score := best.2.1, feature_scores := best.2.2 }
  else if cfg.merge_with_flag_threshold ≤ best.2.1 then
    { action := .merge_with_flag, existing_id := best.1,
      similarity_score := best.2.1, feature_scores := best.2.2 }
  else if cfg.review_threshold ≤ best.2.1 then
    { action := .flag_for_review, existing_id := best.1,
      similarity_score := best.2.1, feature_scores := best.2.2 }
  else
    { action := .create_new, existing_id := none,
      similarity_score := best.2.1, feature_scores := best.2.2 }

/-- `EntityResolver.resolve`: candidate retrieval, then scoring and
threshold selection; an empty candidate set short-circuits to
`CREATE_NEW` with score `0.0`.  A total function: no raise for any
entry. -/
def resolve (P : PyStr) (cfg : ResolverConfig) (store : LsrStore)
    (entry : RawLexicalEntry) : ResolutionResult :=
  let candidates := retrieveCandidates P (buildIndex store) entry
  if candidates = [] then { action := .create_new, similarity_score := 0 }
  else resolveOn P cfg store entry candidates

/-! ## Batch processing (`EntityResolver.process_batch`) -/

/-- The fallback result recorded when resolving one entry raises:
`ResolutionResult(action=CREATE_NEW, issues=[str(e)])`. -/
def fallbackResult (msg : Str) : ResolutionResult :=
  { action := .create_new, issues := [msg] }

/-- `process_batch`, parametrised by the per-entry outcome (`Except`
models the `try/except` around each `resolve` call; the deterministic
embedding of `resolve` itself is total, corresponding to `Except.ok`).
Results are appended one per entry, in input order. -/
def processBatchWith (f : RawLexicalEntry → Except Str ResolutionResult)
    (entries : List RawLexicalEntry) : List ResolutionResult :=
  entries.foldl (fun results e =>
    results ++ [match f e with
                | .ok r => r
                | .error msg => fallbackResult msg]) []

def processBatch (P : PyStr) (cfg : ResolverConfig) (store : LsrStore)
    (entries : List RawLexicalEntry) : List ResolutionResult :=
  processBatchWith (fun e => .ok (resolve P cfg store e)) entries

/-! ## Specification-side helpers (used only to state claims) -/

/-- The scored candidate list: every candidate found in the store paired
with its similarity score, in candidate order. -/
def scoredOf (P : PyStr) (w : SimilarityWeights) (store : LsrStore)
    (entry : RawLexicalEntry) (candidates : List ℕ) : List (ℕ × ℚ) :=
  candidates.filterMap (fun cid =>
    (lookupStore store cid).map (fun c => (cid, (calcSimilarity P w entry c).1)))

/-- The single highest-scoring element, first-seen retained on ties: the
first element whose score is ≥ every score in the list. -/
def firstArgmax (l : List (ℕ × ℚ)) : Option (ℕ × ℚ) :=
  l.find? (fun p => l.all (fun q => decide (q.2 ≤ p.2)))

/-- First-appearance-ordered set union of two lists, as the spec describes
the merged `source_databases` ("insertion order preserved for first
appearance"). -/
def orderedUnion (a b : List Str) : List Str := firstDedup (a ++ b)

/-- The (id, score) projection of the best-match fold, used to reason about
`scanCandidates`. -/
def pairFold (b : Option ℕ × ℚ) (l : List (ℕ × ℚ)) : Option ℕ × ℚ :=
  l.foldl (fun b p => if b.2 < p.2 then (some p.1, p.2) else b) b

/-! ## Concrete instances used in counterexamples and witnesses

All strings involved are ASCII, already lower case and diacritic-free, so
instantiating the abstract environment functions with the identity is the
behaviour of the real `str.lower` / `strip_diacritics` on them. -/

def P0 : PyStr := ⟨fun s => s, fun s => s⟩

/-- An LSR as produced by `LSR(language_code="eng", source_databases=["wikt"])`:
`form_orthographic` defaults to `""`, which is falsy, so the pydantic
validator leaves `form_normalized` as the empty string. -/
def lsrEmptyForm : LSR :=
  { id := 1, language_code := "eng".toList, source_databases := ["wikt".toList] }

def storeC1 : LsrStore := [(1, lsrEmptyForm)]

/-- A malformed entry: empty `form`. -/
def entryC1 : RawLexicalEntry :=
  { source_id := "e1".toList, source_name := "wikt".toList, form := [],
    language := "English".toList, language_code := "eng".toList }

def lsrWater : LSR :=
  { id := 2, form_normalized := "water".toList, language_code := "eng".toList }

def storeC1w : LsrStore := [(2, lsrWater)]

def lsrA : LSR :=
  { id := 5, form_normalized := "b".toList, language_code := "eng".toList }

def lsrB : LSR :=
  { id := 7, form_normalized := "a".toList, language_code := "eng".toList,
    source_databases := ["wikt".toList],
    date_start := some 1000, date_end := some 2000 }

def storeC2 : LsrStore := [(5, lsrA), (7, lsrB)]

def entryC2 : RawLexicalEntry :=
  { source_id := "e2".toList, source_name := "wikt".toList,
    form := "a".toList, language := "English".toList,
    language_code := "eng".toList, date_attested := some 1500 }

def lsrT3 : LSR := { id := 10, source_databases := ["a".toList, "b".toList] }

def lsrS3 : LSR := { id := 11, source_databases := ["c".toList] }

def lsrT4 : LSR := { id := 20, date_end := some 10 }

def lsrS4 : LSR := { id := 21, date_start := some 20 }

def lsrT6 : LSR := { id := 30, definition_primary := "p".toList }

def lsrS6 : LSR :=
  { id := 31, definitions_alternate := ["x".toList, "x".toList] }

def lsrS6b : LSR := { id := 32, definitions_alternate := ["y".toList] }

/-- Textbook edit-distance table used to reason about the row
implementation: `levD s1 s2 i j` is the edit distance between the first
`i` characters of `s1` and the first `j` characters of `s2`, defined by
the standard recurrence (the `min`-structure mirrors the source's
`min(insertions, deletions, substitutions)`). -/
def levD (s1 s2 : Str) : ℕ → ℕ → ℕ
  | 0, j => j
  | i + 1, 0 => i + 1
  | i + 1, j + 1 =>
      min (min (levD s1 s2 i (j + 1) + 1) (levD s1 s2 (i + 1) j + 1))
        (levD s1 s2 i j + (if s1.getD i ' ' = s2.getD j ' ' then 0 else 1))
  termination_by i j => (i, j)

theorem levD_zero_left (s1 s2 : Str) (j : ℕ) : levD s1 s2 0 j = j := by
  simp [levD]

theorem levD_zero_right (s1 s2 : Str) (i : ℕ) : levD s1 s2 i 0 = i := by
  cases i <;> simp [levD]

theorem levD_succ_succ (s1 s2 : Str) (i j : ℕ) :
    levD s1 s2 (i + 1) (j + 1) =
      min (min (levD s1 s2 i (j + 1) + 1) (levD s1 s2 (i + 1) j + 1))
        (levD s1 s2 i j + (if s1.getD i ' ' = s2.getD j ' ' then 0 else 1)) := by
  rw [levD]

theorem cost_symm (x y : Char) :
    (if x = y then (0 : ℕ) else 1) = (if y = x then (0 : ℕ) else 1) := by
  simp only [eq_comm]

/-- The DP table is symmetric under swapping the two strings. -/
theorem levD_symm (s1 s2 : Str) : ∀ i j, levD s1 s2 i j = levD s2 s1 j i := by
  intro i
  induction i with
  | zero => intro j; rw [levD_zero_left, levD_zero_right]
  | succ i ih =>
      intro j
      induction j with
      | zero => rw [levD_zero_left, levD_zero_right]
      | succ j ihj =>
          rw [levD_succ_succ, levD_succ_succ]
          rw [ih (j + 1), ihj, ih j, cost_symm]
          rw [Nat.min_comm (levD s2 s1 (j + 1) i + 1) (levD s2 s1 j (i + 1) + 1)]

theorem drop_eq_cons_parts {α : Type} (d : α) :
    ∀ (j : ℕ) (l : List α) (c : α) (rest : List α),
      l.drop j = c :: rest → l.getD j d = c ∧ l.drop (j + 1) = rest := by
  intro j
  induction j with
  | zero => intro l c rest h; simp at h; subst h; simp
  | succ j ih =>
      intro l c rest h
      cases l with
      | nil => simp at h
      | cons x xs =>
          simp only [List.drop_succ_cons] at h
          have := ih xs c rest h
          simpa [List.getD] using this

/-- Correctness of the inner row loop against the DP table: fed the tail of
row `i` starting at column `j` and the freshly computed cell `(i+1, j)`, it
produces the cells `(i+1, j+1) … (i+1, n)` of the next row. -/
theorem rowAux_spec (s1 s2 : Str) (i : ℕ) :
    ∀ (t : Str) (j : ℕ), t = s2.drop j →
      rowAux (s1.getD i ' ') t ((List.range' j (t.length + 1)).map (levD s1 s2 i))
          (levD s1 s2 (i + 1) j) =
        (List.range' (j + 1) t.length).map (levD s1 s2 (i + 1)) := by
  intro t
  induction t with
  | nil => intro j _; simp [rowAux, List.range'_succ]
  | cons c2 rest ih =>
      intro j ht
      obtain ⟨hc2, hrest⟩ := drop_eq_cons_parts ' ' j s2 c2 rest ht.symm
      have hlen : (c2 :: rest).length + 1 = rest.length + 1 + 1 := by simp
      rw [hlen, List.range'_succ, List.range'_succ]
      simp only [List.map_cons]
      rw [rowAux]
      have hcell :
          min (min (levD s1 s2 i (j + 1) + 1) (levD s1 s2 (i + 1) j + 1))
              (levD s1 s2 i j + (if s1.getD i ' ' = c2 then 0 else 1)) =
            levD s1 s2 (i + 1) (j + 1) := by
        rw [levD_succ_succ, hc2]
      rw [hcell]
      have hprev : (levD s1 s2 i (j + 1) ::
          (List.range' (j + 1 + 1) rest.length).map (levD s1 s2 i)) =
          (List.range' (j + 1) (rest.length + 1)).map (levD s1 s2 i) := by
        rw [List.range'_succ]; simp
      rw [hprev, ih (j + 1) hrest.symm]
      have hlen2 : (c2 :: rest).length = rest.length + 1 := rfl
      rw [hlen2, List.range'_succ, List.map_cons]

/-- Correctness of the outer loop: starting from row `i` it produces row
`i + u.length`, where `u` is the not-yet-processed suffix of `s1`. -/
theorem levLoop_spec (s1 s2 : Str) :
    ∀ (u : Str) (i : ℕ), u = s1.drop i →
      levLoop s2 u ((List.range' 0 (s2.length + 1)).map (levD s1 s2 i)) i =
        (List.range' 0 (s2.length + 1)).map (levD s1 s2 (i + u.length)) := by
  intro u
  induction u with
  | nil => intro i _; simp [levLoop]
  | cons c1 rest ih =>
      intro i hu
      obtain ⟨hc1, hrest⟩ := drop_eq_cons_parts ' ' i s1 c1 rest hu.symm
      rw [levLoop]
      have hrow : (i + 1) :: rowAux c1 s2 ((List.range' 0 (s2.length + 1)).map (levD s1 s2 i))
          (i + 1) = (List.range' 0 (s2.length + 1)).map (levD s1 s2 (i + 1)) := by
        have h0 : s2 = s2.drop 0 := rfl
        have hra := rowAux_spec s1 s2 i s2 0 h0
        rw [hc1] at hra
        have hD0 : levD s1 s2 (i + 1) 0 = i + 1 := levD_zero_right s1 s2 (i + 1)
        rw [hD0] at hra
        rw [hra, List.range'_succ, List.map_cons, hD0]
      rw [hrow, ih (i + 1) hrest.symm]
      have hl : i + 1 + rest.length = i + (c1 :: rest).length := by
        simp only [List.length_cons]
        omega
      rw [hl]

theorem getLastD_map_range' (f : ℕ → ℕ) :
    ∀ (m a : ℕ) (d : ℕ), ((List.range' a (m + 1)).map f).getLastD d = f (a + m) := by
  intro m
  induction m with
  | zero => intro a d; simp [List.range'_succ]
  | succ m ih =>
      intro a d
      rw [List.range'_succ, List.map_cons, List.getLastD_cons, ih (a + 1) (f a)]
      congr 1
      omega

/-- The single-row implementation computes the DP table's corner value. -/
theorem levCore_eq (s1 s2 : Str) : levCore s1 s2 = levD s1 s2 s1.length s2.length := by
  unfold levCore
  by_cases h : s2.length = 0
  · rw [if_pos h, h, levD_zero_right]
  · rw [if_neg h]
    have h1 : (List.range' 0 (s2.length + 1)).map (levD s1 s2 0) =
        (List.range' 0 (s2.length + 1)).map id :=
      List.map_congr_left (fun x _ => levD_zero_left s1 s2 x)
    have hinit : List.range (s2.length + 1) =
        (List.range' 0 (s2.length + 1)).map (levD s1 s2 0) := by
      rw [List.range_eq_range']
      exact (h1.trans (List.map_id (List.range' 0 (s2.length + 1)))).symm
    rw [hinit]
    have hsd : s1 = s1.drop 0 := rfl
    rw [levLoop_spec s1 s2 s1 0 hsd]
    rw [getLastD_map_range' (levD s1 s2 (0 + s1.length)) s2.length 0 0]
    simp

theorem levCore_symm (s1 s2 : Str) : levCore s1 s2 = levCore s2 s1 := by
  rw [levCore_eq, levCore_eq, levD_symm]

theorem levenshtein_nil_right (a : Str) : levenshtein_distance a [] = a.length := by
  simp [levenshtein_distance, levCore]

/-- C10: symmetry of `levenshtein_distance`, in every case of the initial
length-swap. -/
theorem levenshtein_symm (a b : Str) :
    levenshtein_distance a b = levenshtein_distance b a := by
  unfold levenshtein_distance
  rcases lt_trichotomy a.length b.length with h | h | h
  · rw [if_pos h, if_neg (by omega)]
  · rw [if_neg (by omega), if_neg (by omega)]
    exact levCore_symm a b
  · rw [if_neg (by omega), if_pos h]

/-- C10.  For every pair of strings (as code-point sequences),
`levenshtein_distance` is symmetric, and the distance to the empty string
is the length of the other string.  The embedding is a total function, so
it "handles empty strings and Unicode without raising" by construction. -/
theorem claim10_levenshtein (a b : Str) :
    levenshtein_distance a b = levenshtein_distance b a ∧
      levenshtein_distance a [] = a.length :=
  ⟨levenshtein_symm a b, levenshtein_nil_right a⟩

/-! ## Properties of the merge operation -/

theorem mergeWith_source_databases (pySet : List Str → List Str) (now : ℕ)
    (t s : LSR) : (mergeWith pySet now t s).source_databases =
      pySet (t.source_databases ++ s.source_databases) := rfl

theorem mergeWith_definitions_alternate (pySet : List Str → List Str) (now : ℕ)
    (t s : LSR) : (mergeWith pySet now t s).definitions_alternate =
      t.definitions_alternate ++ s.definitions_alternate.filter
        (fun d => decide (d ∉ t.definitions_alternate ∧
          d ≠ t.definition_primary)) := rfl

theorem mergeWith_definition_primary (pySet : List Str → List Str) (now : ℕ)
    (t s : LSR) :
    (mergeWith pySet now t s).definition_primary = t.definition_primary := rfl

theorem mem_firstDedupAux (a : Str) :
    ∀ (l seen : List Str), a ∈ firstDedupAux seen l ↔ a ∈ l ∧ a ∉ seen := by
  intro l
  induction l with
  | nil => intro seen; simp [firstDedupAux]
  | cons x xs ih =>
      intro seen
      by_cases hx : x ∈ seen
      · rw [firstDedupAux, if_pos hx, ih]
        constructor
        · rintro ⟨h1, h2⟩; exact ⟨List.mem_cons_of_mem x h1, h2⟩
        · rintro ⟨h1, h2⟩
          rcases List.mem_cons.1 h1 with rfl | h1
          · exact absurd hx h2
          · exact ⟨h1, h2⟩
      · rw [firstDedupAux, if_neg hx]
        constructor
        · intro h
          rcases List.mem_cons.1 h with rfl | h
          · exact ⟨List.mem_cons_self a xs, hx⟩
          · obtain ⟨h1, h2⟩ := (ih (x :: seen)).1 h
            exact ⟨List.mem_cons_of_mem x h1,
              fun hs => h2 (List.mem_cons_of_mem x hs)⟩
        · rintro ⟨h1, h2⟩
          rcases List.mem_cons.1 h1 with rfl | h1
          · exact List.mem_cons_self a _
          · by_cases hax : a = x
            · subst hax; exact List.mem_cons_self a _
            · exact List.mem_cons_of_mem x ((ih (x :: seen)).2
                ⟨h1, fun hs => by
                  rcases List.mem_cons.1 hs with h | h
                  · exact hax h
                  · exact h2 h⟩)

theorem nodup_firstDedupAux :
    ∀ (l seen : List Str), (firstDedupAux seen l).Nodup := by
  intro l
  induction l with
  | nil => intro seen; simp [firstDedupAux]
  | cons x xs ih =>
      intro seen
      by_cases hx : x ∈ seen
      · rw [firstDedupAux, if_pos hx]; exact ih seen
      · rw [firstDedupAux, if_neg hx]
        refine List.Nodup.cons ?_ (ih (x :: seen))
        intro hmem
        exact ((mem_firstDedupAux x xs (x :: seen)).1 hmem).2
          (List.mem_cons_self x seen)

theorem mem_firstDedup (a : Str) (l : List Str) :
    a ∈ firstDedup l ↔ a ∈ l := by
  rw [firstDedup, mem_firstDedupAux]
  simp

/-- `firstDedup` is one admissible realisation of `list(set(...))`. -/
theorem pySetValid_firstDedup : PySetValid firstDedup := by
  intro l
  refine ⟨nodup_firstDedupAux l [], ?_⟩
  ext a
  simp [List.mem_toFinset, mem_firstDedup]

/-- C3 counterexample.  `revDedup` is an admissible enumeration of the
Python set (duplicate-free, same elements), yet the merged
`source_databases` it produces is not the first-appearance-ordered union:
merging `["c"]` into `["a","b"]` can yield `["c","b","a"]`.  The claim's
order requirement therefore fails on the code, whose `list(set(...))`
gives no order guarantee. -/
theorem claim3_counterexample :
    (mergeWith revDedup 0 lsrT3 lsrS3).source_databases.Nodup ∧
    (mergeWith revDedup 0 lsrT3 lsrS3).source_databases.toFinset =
      (lsrT3.source_databases ++ lsrS3.source_databases).toFinset ∧
    (mergeWith revDedup 0 lsrT3 lsrS3).source_databases ≠
      orderedUnion lsrT3.source_databases lsrS3.source_databases := by
  decide

/-- C3 (amended).  After `target.merge_with(source)`, the target's
`source_databases` holds exactly the set union of the two input lists with
no duplicates; the order is whatever the set enumeration produced
(unspecified), not necessarily insertion order. -/
theorem claim3_amended (pySet : List Str → List Str) (h : PySetValid pySet)
    (now : ℕ) (t s : LSR) :
    (mergeWith pySet now t s).source_databases.Nodup ∧
    (mergeWith pySet now t s).source_databases.toFinset =
      t.source_databases.toFinset ∪ s.source_databases.toFinset := by
  obtain ⟨h1, h2⟩ := h (t.source_databases ++ s.source_databases)
  rw [mergeWith_source_databases]
  exact ⟨h1, h2.trans List.toFinset_append⟩

theorem claim3_amended_witness :
    (mergeWith firstDedup 0 lsrT3 lsrS3).source_databases.Nodup ∧
    (mergeWith firstDedup 0 lsrT3 lsrS3).source_databases.toFinset =
      lsrT3.source_databases.toFinset ∪ lsrS3.source_databases.toFinset :=
  claim3_amended firstDedup pySetValid_firstDedup 0 lsrT3 lsrS3

/-- C4.  The merge date-range logic adopts a missing bound from the other
side independently per bound, so a target `(None, 10)` merged with a
source `(20, None)` — both satisfying `date_end >= date_start` vacuously —
produces `(20, 10)`, violating the invariant that
`LSR.validate_date_range` enforces at construction (assignment in
`merge_with` bypasses validation). -/
theorem claim4_code_bug :
    dateOk lsrT4 = true ∧ dateOk lsrS4 = true ∧
    (mergeWith firstDedup 0 lsrT4 lsrS4).date_start = some 20 ∧
    (mergeWith firstDedup 0 lsrT4 lsrS4).date_end = some 10 ∧
    dateOk (mergeWith firstDedup 0 lsrT4 lsrS4) = false := by
  decide

/-- C5.  The guard `if entry.date_attested and candidate.date_start and
candidate.date_end:` treats the **zero** year as missing (Python int
truthiness), so an attested year 0 inside the candidate's range scores the
neutral 0.5 instead of the claimed 1.0; likewise a candidate bound equal
to 0.  A nonzero in-range year scores 1.0 as claimed. -/
theorem claim5_code_bug :
    dateOverlapFeature (some 0) (some (-100)) (some 100) = 1/2 ∧
    dateOverlapFeature (some 50) (some 0) (some 100) = 1/2 ∧
    dateOverlapFeature (some 50) (some (-100)) (some 100) = 1 := by
  refine ⟨?_, ?_, ?_⟩ <;> norm_num [dateOverlapFeature]

/-- C6 counterexample.  The skip test uses the pre-merge snapshot
`existing_defs = set(self.definitions_alternate)`, never updated inside
the loop, so a source whose alternates contain an internal duplicate
(here `["x","x"]`) deposits both copies into a previously duplicate-free
target. -/
theorem claim6_counterexample :
    lsrT6.definitions_alternate.Nodup ∧
    lsrT6.definition_primary ∉ lsrT6.definitions_alternate ∧
    ¬ (mergeWith firstDedup 0 lsrT6 lsrS6).definitions_alternate.Nodup := by
  decide

/-- C6 (amended).  If additionally the source's alternates are themselves
duplicate-free, then after the merge the target's alternates contain no
duplicates and never contain the target's primary definition. -/
theorem claim6_amended (pySet : List Str → List Str) (now : ℕ) (t s : LSR)
    (h1 : t.definitions_alternate.Nodup)
    (h2 : t.definition_primary ∉ t.definitions_alternate)
    (h3 : s.definitions_alternate.Nodup) :
    (mergeWith pySet now t s).definitions_alternate.Nodup ∧
    (mergeWith pySet now t s).definition_primary ∉
      (mergeWith pySet now t s).definitions_alternate := by
  rw [mergeWith_definitions_alternate, mergeWith_definition_primary]
  constructor
  · rw [List.nodup_append]
    refine ⟨h1, h3.filter _, ?_⟩
    intro x hx hxf
    have hmf := (List.mem_filter.1 hxf).2
    have := of_decide_eq_true hmf
    exact this.1 hx
  · intro hmem
    rcases List.mem_append.1 hmem with h | h
    · exact h2 h
    · have hmf := (List.mem_filter.1 h).2
      exact (of_decide_eq_true hmf).2 rfl

theorem claim6_amended_witness :
    (mergeWith firstDedup 0 lsrT6 lsrS6b).definitions_alternate.Nodup ∧
    (mergeWith firstDedup 0 lsrT6 lsrS6b).definition_primary ∉
      (mergeWith firstDedup 0 lsrT6 lsrS6b).definitions_alternate :=
  claim6_amended firstDedup 0 lsrT6 lsrS6b (by decide) (by decide) (by decide)

/-- C9.  `merge_with` increments the target's version by exactly 1, never
touches the target's id, and contains no assignment to the source, which
the state-pair translation returns unchanged. -/
theorem claim9_merge_frame (pySet : List Str → List Str) (now : ℕ)
    (t s : LSR) :
    (mergeWith pySet now t s).version = t.version + 1 ∧
    (mergeWith pySet now t s).id = t.id ∧
    (mergeWithPair pySet now (t, s)).2 = s :=
  ⟨rfl, rfl, rfl⟩

/-! ## Batch processing -/

theorem batch_foldl (f : RawLexicalEntry → Except Str ResolutionResult) :
    ∀ (es : List RawLexicalEntry) (acc : List ResolutionResult),
      es.foldl (fun results e =>
          results ++ [match f e with
                      | .ok r => r
                      | .error msg => fallbackResult msg]) acc =
        acc ++ es.map (fun e =>
          match f e with
          | .ok r => r
          | .error msg => fallbackResult msg) := by
  intro es
  induction es with
  | nil => intro acc; simp
  | cons e rest ih =>
      intro acc
      rw [List.foldl_cons, ih]
      simp

/-- C7.  For every per-entry outcome function (covering any exception a
`resolve` call might raise) and every entry list, `process_batch` returns
exactly one result per entry in input order: the entry's own resolution
when it succeeds, and the `CREATE_NEW` fallback carrying the exception
message as an issue when it raises — other entries are unaffected. -/
theorem claim7_batch (f : RawLexicalEntry → Except Str ResolutionResult)
    (entries : List RawLexicalEntry) :
    processBatchWith f entries = entries.map (fun e =>
      match f e with
      | .ok r => r
      | .error msg => { action := .create_new, issues := [msg] }) ∧
    (processBatchWith f entries).length = entries.length := by
  have h := batch_foldl f entries []
  rw [List.nil_append] at h
  refine ⟨h, ?_⟩
  rw [processBatchWith, h]
  exact List.length_map _ _

/-! ## Similarity score bounds -/

theorem formFuzzy_bounds (a b : Str) :
    0 ≤ formFuzzyFeature a b ∧ formFuzzyFeature a b ≤ 1 := by
  unfold formFuzzyFeature
  refine ⟨le_max_left 0 _, ?_⟩
  apply max_le (by norm_num)
  have hm : (0 : ℚ) < ((max (max a.length b.length) 1 : ℕ) : ℚ) := by
    have h1 : 1 ≤ max (max a.length b.length) 1 := le_max_right _ _
    exact_mod_cast Nat.lt_of_lt_of_le Nat.zero_lt_one h1
  have hd : 0 ≤ ((levenshtein_distance a b : ℕ) : ℚ) /
      ((max (max a.length b.length) 1 : ℕ) : ℚ) :=
    div_nonneg (by positivity) (le_of_lt hm)
  linarith

theorem semantic_bounds (P : PyStr) (defs : List Str) (primary : Str) :
    0 ≤ semanticFeature P defs primary ∧ semanticFeature P defs primary ≤ 1 := by
  unfold semanticFeature
  split_ifs with h1 h2 h3
  · have hsub : (wordSet (P.lower (joinSpace defs)) ∩ wordSet (P.lower primary)).card ≤
        (wordSet (P.lower (joinSpace defs)) ∪ wordSet (P.lower primary)).card :=
      Finset.card_le_card Finset.inter_subset_union
    have hpos : (0 : ℚ) <
        ((wordSet (P.lower (joinSpace defs)) ∪ wordSet (P.lower primary)).card : ℚ) := by
      exact_mod_cast h3
    constructor
    · exact div_nonneg (by positivity) (le_of_lt hpos)
    · rw [div_le_one hpos]
      exact_mod_cast hsub
  · norm_num
  · norm_num
  · norm_num

theorem dateOverlapFeature_some (d s e : Int) :
    dateOverlapFeature (some d) (some s) (some e) =
      if d ≠ 0 ∧ s ≠ 0 ∧ e ≠ 0 then
        if s ≤ d ∧ d ≤ e then (1 : ℚ)
        else max 0 (1 - ((min (d - s).natAbs (d - e).natAbs : ℚ)) / 100)
      else 1/2 := rfl

theorem dateOverlap_some_bounds (d s e : Int) :
    0 ≤ dateOverlapFeature (some d) (some s) (some e) ∧
      dateOverlapFeature (some d) (some s) (some e) ≤ 1 := by
  rw [dateOverlapFeature_some]
  split_ifs with h1 h2
  · norm_num
  · have hx : (0 : ℚ) ≤ ((min (d - s).natAbs (d - e).natAbs : ℕ) : ℚ) / 100 := by
      positivity
    refine ⟨le_max_left 0 _, ?_⟩
    apply max_le (by norm_num)
    push_cast at hx ⊢
    linarith
  · norm_num

theorem dateOverlap_bounds (a b c : Option Int) :
    0 ≤ dateOverlapFeature a b c ∧ dateOverlapFeature a b c ≤ 1 := by
  rcases a with _ | d <;> rcases b with _ | s <;> rcases c with _ | e <;>
    try exact show (0 : ℚ) ≤ 1/2 ∧ (1/2 : ℚ) ≤ 1 from ⟨by norm_num, by norm_num⟩
  exact dateOverlap_some_bounds d s e

/-- C8.  With the default weights, each of the five features lies in
`[0, 1]` and the weighted total similarity score lies in `[0, 1]`. -/
theorem claim8_bounds (P : PyStr) (entry : RawLexicalEntry) (cand : LSR) :
    (0 ≤ (calcSimilarity P {} entry cand).2.form_exact ∧
      (calcSimilarity P {} entry cand).2.form_exact ≤ 1) ∧
    (0 ≤ (calcSimilarity P {} entry cand).2.form_fuzzy ∧
      (calcSimilarity P {} entry cand).2.form_fuzzy ≤ 1) ∧
    (0 ≤ (calcSimilarity P {} entry cand).2.semantic ∧
      (calcSimilarity P {} entry cand).2.semantic ≤ 1) ∧
    (0 ≤ (calcSimilarity P {} entry cand).2.date_overlap ∧
      (calcSimilarity P {} entry cand).2.date_overlap ≤ 1) ∧
    (0 ≤ (calcSimilarity P {} entry cand).2.source_agreement ∧
      (calcSimilarity P {} entry cand).2.source_agreement ≤ 1) ∧
    (0 ≤ (calcSimilarity P {} entry cand).1 ∧
      (calcSimilarity P {} entry cand).1 ≤ 1) := by
  have hfe : 0 ≤ (if P.normalizeForm entry.form = cand.form_normalized
      then (1 : ℚ) else 0) ∧
      (if P.normalizeForm entry.form = cand.form_normalized
      then (1 : ℚ) else 0) ≤ 1 := by
    split_ifs <;> norm_num
  have hsa : 0 ≤ (if entry.source_name ∈ cand.source_databases
      then (1 : ℚ) else 0) ∧
      (if entry.source_name ∈ cand.source_databases
      then (1 : ℚ) else 0) ≤ 1 := by
    split_ifs <;> norm_num
  have hff := formFuzzy_bounds (P.normalizeForm entry.form) cand.form_normalized
  have hse := semantic_bounds P entry.definitions cand.definition_primary
  have hdd := dateOverlap_bounds entry.date_attested cand.date_start cand.date_end
  have htot : (calcSimilarity P {} entry cand).1 =
      (if P.normalizeForm entry.form = cand.form_normalized then (1 : ℚ) else 0) *
          (3/10) +
        formFuzzyFeature (P.normalizeForm entry.form) cand.form_normalized * (2/10) +
        semanticFeature P entry.definitions cand.definition_primary * (3/10) +
        dateOverlapFeature entry.date_attested cand.date_start cand.date_end *
          (1/10) +
        (if entry.source_name ∈ cand.source_databases then (1 : ℚ) else 0) *
          (1/10) := rfl
  refine ⟨hfe, hff, hse, hdd, hsa, ?_, ?_⟩ <;>
  · rw [htot]
    obtain ⟨hfe1, hfe2⟩ := hfe
    obtain ⟨hsa1, hsa2⟩ := hsa
    obtain ⟨hff1, hff2⟩ := hff
    obtain ⟨hse1, hse2⟩ := hse
    obtain ⟨hdd1, hdd2⟩ := hdd
    linarith

/-! ## Candidate retrieval on malformed entries (C1) -/

theorem levenshtein_nil_left (b : Str) :
    levenshtein_distance [] b = b.length := by
  rcases b with _ | ⟨c, rest⟩
  · simp [levenshtein_distance, levCore]
  · have h : ([] : Str).length < (c :: rest).length := by simp
    rw [levenshtein_distance, if_pos h]
    simp [levCore]

theorem rsplitAux_none (l : Str) (h : ':' ∉ l) : rsplitColonAux l = none := by
  induction l with
  | nil => rfl
  | cons c rest ih =>
      have hc : ¬(c = ':') := fun hh => h (hh ▸ List.mem_cons_self c rest)
      have hrest : ':' ∉ rest := fun hh => h (List.mem_cons_of_mem c hh)
      rw [rsplitColonAux, ih hrest]
      simp [hc]

theorem rsplitAux_key (f l : Str) (h : ':' ∉ l) :
    rsplitColonAux (f ++ ':' :: l) = some (f, l) := by
  induction f with
  | nil =>
      show rsplitColonAux (':' :: l) = some ([], l)
      rw [rsplitColonAux, rsplitAux_none l h]
      simp
  | cons c f' ih =>
      show rsplitColonAux (c :: (f' ++ ':' :: l)) = some (c :: f', l)
      rw [rsplitColonAux, ih]

theorem rsplitColon_key (f l : Str) (h : ':' ∉ l) :
    rsplitColon (f ++ ':' :: l) = (f, l) := by
  rw [rsplitColon, rsplitAux_key f l h]
  rfl

theorem indexKey_inj (f l f' l' : Str) (h : ':' ∉ l) (h' : ':' ∉ l')
    (he : f ++ ':' :: l = f' ++ ':' :: l') : f = f' ∧ l = l' := by
  have hsplit := congrArg rsplitColon he
  rw [rsplitColon_key f l h, rsplitColon_key f' l' h'] at hsplit
  exact ⟨congrArg Prod.fst hsplit, congrArg Prod.snd hsplit⟩

theorem indexInsert_mem (idx : List (Str × List ℕ)) (key : Str) (id : ℕ) :
    ∀ kv ∈ indexInsert idx key id, kv.1 = key ∨ ∃ kv' ∈ idx, kv.1 = kv'.1 := by
  induction idx with
  | nil =>
      intro kv hkv
      rw [indexInsert] at hkv
      rcases List.mem_singleton.1 hkv with rfl
      exact Or.inl rfl
  | cons p rest ih =>
      rcases p with ⟨k, ids⟩
      intro kv hkv
      rw [indexInsert] at hkv
      by_cases hk : k = key
      · rw [if_pos hk] at hkv
        rcases List.mem_cons.1 hkv with rfl | hkv
        · exact Or.inl hk
        · exact Or.inr ⟨kv, List.mem_cons_of_mem _ hkv, rfl⟩
      · rw [if_neg hk] at hkv
        rcases List.mem_cons.1 hkv with rfl | hkv
        · exact Or.inr ⟨(k, ids), List.mem_cons_self _ _, rfl⟩
        · rcases ih kv hkv with h | ⟨kv', hkv', heq⟩
          · exact Or.inl h
          · exact Or.inr ⟨kv', List.mem_cons_of_mem _ hkv', heq⟩

theorem buildIndex_keys (store : LsrStore) :
    ∀ kv ∈ buildIndex store, ∃ p ∈ store, kv.1 = indexKey p.2 := by
  suffices h : ∀ (l : LsrStore) (idx : List (Str × List ℕ)),
      ∀ kv ∈ l.foldl (fun idx p => indexInsert idx (indexKey p.2) p.1) idx,
        (∃ kv' ∈ idx, kv.1 = kv'.1) ∨ ∃ p ∈ l, kv.1 = indexKey p.2 by
    intro kv hkv
    rcases h store [] kv hkv with ⟨kv', h', _⟩ | hres
    · exact absurd h' (List.not_mem_nil kv')
    · exact hres
  intro l
  induction l with
  | nil => intro idx kv hkv; exact Or.inl ⟨kv, hkv, rfl⟩
  | cons p rest ih =>
      intro idx kv hkv
      rw [List.foldl_cons] at hkv
      rcases ih (indexInsert idx (indexKey p.2) p.1) kv hkv with
        ⟨kv', hkv', heq⟩ | ⟨q, hq, heq⟩
      · rcases indexInsert_mem idx (indexKey p.2) p.1 kv' hkv' with hk | ⟨kv'', hkv'', heq'⟩
        · exact Or.inr ⟨p, List.mem_cons_self p rest, heq.trans hk⟩
        · exact Or.inl ⟨kv'', hkv'', heq.trans heq'⟩
      · exact Or.inr ⟨q, List.mem_cons_of_mem p hq, heq⟩

theorem fuzzy_foldl_nil (idx : List (Str × List ℕ)) (lang fn : Str)
    (h : ∀ kv ∈ idx, ¬((rsplitColon kv.1).2 = lang ∧
      levenshtein_distance fn (rsplitColon kv.1).1 ≤ 2)) :
    ∀ acc, idx.foldl (fuzzyStep lang fn) acc = acc := by
  induction idx with
  | nil => intro acc; rfl
  | cons kv rest ih =>
      intro acc
      rw [List.foldl_cons]
      have hstep : fuzzyStep lang fn acc kv = acc := by
        rw [fuzzyStep, if_neg (h kv (List.mem_cons_self kv rest))]
      rw [hstep]
      exact ih (fun kv' hkv' => h kv' (List.mem_cons_of_mem kv hkv')) acc

/-- C1 (amended).  `resolve` is a total function (never raises), and an
entry whose form normalises to the empty string resolves to `CREATE_NEW`
with score `0.0` whenever no stored LSR in the entry's language has a
normalized form of length ≤ 2 (in particular, always on an empty store).
The original claim's unconditional statement fails: a store may contain an
LSR with an empty or near-empty normalized form, which the empty-form
entry then matches like any other (see the counterexample). -/
theorem claim1_corrected (P : PyStr) (cfg : ResolverConfig) (store : LsrStore)
    (entry : RawLexicalEntry)
    (hform : P.normalizeForm entry.form = [])
    (hlang : ':' ∉ entryLang P entry)
    (hstore : ∀ p ∈ store, ':' ∉ p.2.language_code)
    (hlong : ∀ p ∈ store, p.2.language_code = entryLang P entry →
      2 < p.2.form_normalized.length) :
    resolve P cfg store entry =
      { action := .create_new, similarity_score := 0 } := by
  have hexact : (buildIndex store).find?
      (fun kv => kv.1 == ([] : Str) ++ ':' :: entryLang P entry) = none := by
    rw [List.find?_eq_none]
    intro kv hkv
    obtain ⟨p, hp, hkey⟩ := buildIndex_keys store kv hkv
    intro hEq
    have hkv1 : kv.1 = ([] : Str) ++ ':' :: entryLang P entry := by
      exact eq_of_beq hEq
    rw [hkey, indexKey] at hkv1
    obtain ⟨hf, _⟩ := indexKey_inj p.2.form_normalized p.2.language_code
      [] (entryLang P entry) (hstore p hp) hlang hkv1
    have hlen := hlong p hp (by
      obtain ⟨_, hl⟩ := indexKey_inj p.2.form_normalized p.2.language_code
        [] (entryLang P entry) (hstore p hp) hlang hkv1
      exact hl)
    rw [hf] at hlen
    simp at hlen
  have hfuzzy : (buildIndex store).foldl
      (fuzzyStep (entryLang P entry) []) [] = [] := by
    apply fuzzy_foldl_nil
    · intro kv hkv
      obtain ⟨p, hp, hkey⟩ := buildIndex_keys store kv hkv
      rw [hkey, indexKey, rsplitColon_key _ _ (hstore p hp)]
      dsimp only
      rintro ⟨hl, hd⟩
      rw [levenshtein_nil_left] at hd
      have := hlong p hp hl
      omega
  have hcand : retrieveCandidates P (buildIndex store) entry = [] := by
    simp only [retrieveCandidates, hform, hfuzzy, hexact]
    rfl
  simp only [resolve, hcand]
  rfl

theorem claim1_corrected_witness :
    resolve P0 {} storeC1w entryC1 =
      { action := .create_new, similarity_score := 0 } :=
  claim1_corrected P0 {} storeC1w entryC1 rfl (by decide) (by decide) (by decide)

/-! ## Concrete evaluation of the resolver (used by C1's counterexample and
C2's witness) -/

theorem resolveOn_spec (P : PyStr) (cfg : ResolverConfig) (store : LsrStore)
    (entry : RawLexicalEntry) (candidates : List ℕ)
    (b : Option ℕ × ℚ × Option Feats)
    (hb : scanCandidates P cfg.weights store entry candidates = b) :
    resolveOn P cfg store entry candidates =
      if cfg.auto_merge_threshold ≤ b.2.1 then
        { action := .auto_merge, existing_id := b.1,
          similarity_score := b.2.1, feature_scores := b.2.2 }
      else if cfg.merge_with_flag_threshold ≤ b.2.1 then
        { action := .merge_with_flag, existing_id := b.1,
          similarity_score := b.2.1, feature_scores := b.2.2 }
      else if cfg.review_threshold ≤ b.2.1 then
        { action := .flag_for_review, existing_id := b.1,
          similarity_score := b.2.1, feature_scores := b.2.2 }
      else
        { action := .create_new, existing_id := none,
          similarity_score := b.2.1, feature_scores := b.2.2 } := by
  simp only [resolveOn, hb]

theorem scan_single (P : PyStr) (w : SimilarityWeights) (store : LsrStore)
    (entry : RawLexicalEntry) (cid : ℕ) (cand : LSR)
    (h : lookupStore store cid = some cand) :
    scanCandidates P w store entry [cid] =
      (if (0 : ℚ) < (calcSimilarity P w entry cand).1
       then (some cid, (calcSimilarity P w entry cand).1,
             some (calcSimilarity P w entry cand).2)
       else (none, 0, none)) := by
  simp only [scanCandidates, List.foldl_cons, List.foldl_nil, scanStep, h]

theorem evalC1_ff : formFuzzyFeature [] [] = 1 := by
  have h0 : levenshtein_distance ([] : Str) [] = 0 := rfl
  simp only [formFuzzyFeature, h0, List.length_nil]
  norm_num

theorem evalC1_feat :
    calcSimilarity P0 ({} : ResolverConfig).weights entryC1 lsrEmptyForm =
      (4/5, ⟨1, 1, 1/2, 1/2, 1⟩) := by
  have key : calcSimilarity P0 ({} : ResolverConfig).weights entryC1 lsrEmptyForm =
      (1 * (3/10) + formFuzzyFeature [] [] * (2/10) + (1/2) * (3/10) +
        (1/2) * (1/10) + 1 * (1/10),
       ⟨1, formFuzzyFeature [] [], 1/2, 1/2, 1⟩) := rfl
  rw [key, evalC1_ff]
  norm_num

theorem evalC1_scan :
    scanCandidates P0 ({} : ResolverConfig).weights storeC1 entryC1 [1] =
      (some 1, 4/5, some ⟨1, 1, 1/2, 1/2, 1⟩) := by
  have hlook : lookupStore storeC1 1 = some lsrEmptyForm := rfl
  rw [scan_single P0 ({} : ResolverConfig).weights storeC1 entryC1 1
    lsrEmptyForm hlook, evalC1_feat]
  norm_num

/-- Full evaluation of the Python pipeline on the malformed entry against
`storeC1`: the empty-form entry hits the index key `":eng"` of the stored
empty-form LSR and scores `0.3·1 + 0.2·1 + 0.3·0.5 + 0.1·0.5 + 0.1·1 = 0.8`. -/
theorem evalC1_resolve : resolve P0 {} storeC1 entryC1 =
    { action := .flag_for_review, existing_id := some 1,
      similarity_score := 4/5, feature_scores := some ⟨1, 1, 1/2, 1/2, 1⟩ } := by
  have hcand : retrieveCandidates P0 (buildIndex storeC1) entryC1 = [1] := rfl
  have hron := resolveOn_spec P0 {} storeC1 entryC1 [1] _ evalC1_scan
  have h1 : ({} : ResolverConfig).auto_merge_threshold = 95/100 := rfl
  have h2 : ({} : ResolverConfig).merge_with_flag_threshold = 85/100 := rfl
  have h3 : ({} : ResolverConfig).review_threshold = 70/100 := rfl
  rw [h1, h2, h3] at hron
  simp only [resolve, hcand]
  rw [if_neg (by decide : ¬([1] : List ℕ) = [])]
  rw [hron]
  norm_num

/-- C1 counterexample.  On a store holding an LSR whose `form_normalized`
is the empty string (as arises from `LSR()` with no orthographic form) in
the entry's language, the empty-form "malformed" entry does **not**
resolve to `CREATE_NEW` with score 0: it matches the stored record and
resolves to `FLAG_FOR_REVIEW` with score 0.8. -/
theorem claim1_counterexample :
    entryC1.form = [] ∧
    (resolve P0 {} storeC1 entryC1).action = ResolutionAction.flag_for_review ∧
    (resolve P0 {} storeC1 entryC1).action ≠ ResolutionAction.create_new ∧
    (resolve P0 {} storeC1 entryC1).similarity_score ≠ 0 := by
  refine ⟨rfl, ?_, ?_, ?_⟩ <;> rw [evalC1_resolve]
  · decide
  · norm_num

/-! ## Best-match tracking (C2) -/

theorem pairFold_cons (b : Option ℕ × ℚ) (p : ℕ × ℚ) (l : List (ℕ × ℚ)) :
    pairFold b (p :: l) =
      pairFold (if b.2 < p.2 then (some p.1, p.2) else b) l := by
  simp only [pairFold, List.foldl_cons]

/-- The (id, score) components of the `scanCandidates` fold agree with
`pairFold` over the scored candidate list. -/
theorem scan_to_pair (P : PyStr) (w : SimilarityWeights) (store : LsrStore)
    (entry : RawLexicalEntry) :
    ∀ (cands : List ℕ) (best : Option ℕ × ℚ × Option Feats),
      ((cands.foldl (scanStep P w store entry) best).1,
        (cands.foldl (scanStep P w store entry) best).2.1) =
        pairFold (best.1, best.2.1) (scoredOf P w store entry cands) := by
  intro cands
  induction cands with
  | nil => intro best; rfl
  | cons cid rest ih =>
      intro best
      rw [List.foldl_cons]
      rcases hl : lookupStore store cid with _ | cand
      · have hstep : scanStep P w store entry best cid = best := by
          simp only [scanStep, hl]
        have hs : scoredOf P w store entry (cid :: rest) =
            scoredOf P w store entry rest := by
          simp only [scoredOf, List.filterMap_cons, hl, Option.map_none']
        rw [hstep, hs]
        exact ih best
      · have hstep : scanStep P w store entry best cid =
            (if best.2.1 < (calcSimilarity P w entry cand).1
             then (some cid, (calcSimilarity P w entry cand).1,
                   some (calcSimilarity P w entry cand).2)
             else best) := by
          simp only [scanStep, hl]
        have hs : scoredOf P w store entry (cid :: rest) =
            (cid, (calcSimilarity P w entry cand).1) ::
              scoredOf P w store entry rest := by
          simp only [scoredOf, List.filterMap_cons, hl, Option.map_some']
        rw [hstep, hs, pairFold_cons]
        by_cases h : best.2.1 < (calcSimilarity P w entry cand).1
        · rw [if_pos h, if_pos h]
          exact ih (some cid, (calcSimilarity P w entry cand).1,
            some (calcSimilarity P w entry cand).2)
        · rw [if_neg h, if_neg h]
          exact ih best

theorem pairFold_score : ∀ (l : List (ℕ × ℚ)) (b : Option ℕ × ℚ),
    (pairFold b l).2 = l.foldl (fun m p => max m p.2) b.2 := by
  intro l
  induction l with
  | nil => intro b; rfl
  | cons p rest ih =>
      intro b
      rw [pairFold_cons, ih, List.foldl_cons]
      congr 1
      by_cases h : b.2 < p.2
      · rw [if_pos h]
        exact (max_eq_right (le_of_lt h)).symm
      · rw [if_neg h]
        exact (max_eq_left (le_of_not_lt h)).symm

theorem pairFold_stall : ∀ (l : List (ℕ × ℚ)) (b : Option ℕ × ℚ),
    (∀ p ∈ l, p.2 ≤ b.2) → pairFold b l = b := by
  intro l
  induction l with
  | nil => intro b _; rfl
  | cons p rest ih =>
      intro b h
      rw [pairFold_cons, if_neg (not_lt.2 (h p (List.mem_cons_self p rest)))]
      exact ih b (fun q hq => h q (List.mem_cons_of_mem p hq))

theorem find?_congr_mem {α : Type} : ∀ (l : List α) (p q : α → Bool),
    (∀ x ∈ l, p x = q x) → l.find? p = l.find? q := by
  intro l
  induction l with
  | nil => intro p q _; rfl
  | cons x rest ih =>
      intro p q h
      rw [List.find?_cons, List.find?_cons, h x (List.mem_cons_self x rest)]
      cases hq : q x
      · exact ih p q (fun y hy => h y (List.mem_cons_of_mem x hy))
      · rfl

/-- The fold keeps the first element whose score strictly exceeds the
running best and is never beaten later: given some element beating the
initial score, the kept id is the first list element whose score is ≥
every score (among those beating the initial score). -/
theorem pairFold_max : ∀ (l : List (ℕ × ℚ)) (b : Option ℕ × ℚ),
    (∃ p ∈ l, b.2 < p.2) →
    (pairFold b l).1 = (l.find? (fun p => decide (b.2 < p.2) &&
        l.all (fun q => decide (q.2 ≤ p.2)))).map (fun p => p.1) := by
  intro l
  induction l with
  | nil =>
      rintro b ⟨p, hp, _⟩
      exact absurd hp (List.not_mem_nil p)
  | cons p₀ rest ih =>
      rintro b hex
      rw [pairFold_cons, List.find?_cons]
      by_cases h : b.2 < p₀.2
      · rw [if_pos h]
        by_cases hrest : ∀ q ∈ rest, q.2 ≤ p₀.2
        · have hstall : pairFold (some p₀.1, p₀.2) rest = (some p₀.1, p₀.2) :=
            pairFold_stall rest (some p₀.1, p₀.2) hrest
          rw [hstall]
          have hpred : (decide (b.2 < p₀.2) &&
              (p₀ :: rest).all (fun q => decide (q.2 ≤ p₀.2))) = true := by
            simp only [Bool.and_eq_true, decide_eq_true_eq, List.all_eq_true]
            refine ⟨h, fun q hq => ?_⟩
            rcases List.mem_cons.1 hq with rfl | hq
            · exact le_refl q.2
            · exact hrest q hq
          rw [hpred]
          rfl
        · push_neg at hrest
          obtain ⟨q₀, hq₀, hq₀gt⟩ := hrest
          have hih := ih (some p₀.1, p₀.2) ⟨q₀, hq₀, hq₀gt⟩
          rw [hih]
          have hpred : (decide (b.2 < p₀.2) &&
              (p₀ :: rest).all (fun q => decide (q.2 ≤ p₀.2))) = false := by
            have hnt : ¬((decide (b.2 < p₀.2) &&
                (p₀ :: rest).all (fun q => decide (q.2 ≤ p₀.2))) = true) := by
              simp only [Bool.and_eq_true, decide_eq_true_eq, List.all_eq_true]
              rintro ⟨_, hall⟩
              exact absurd (hall q₀ (List.mem_cons_of_mem p₀ hq₀))
                (not_le.2 hq₀gt)
            exact Bool.eq_false_iff.2 hnt
          rw [hpred]
          congr 1
          apply find?_congr_mem
          intro x hx
          rw [Bool.eq_iff_iff]
          simp only [Bool.and_eq_true, decide_eq_true_eq, List.all_eq_true,
            List.mem_cons, forall_eq_or_imp]
          constructor
          · rintro ⟨hpx, hall⟩
            have hx2 : p₀.2 < x.2 := lt_of_lt_of_le hq₀gt (hall q₀ hq₀)
            exact ⟨lt_trans h hx2, le_of_lt hx2, hall⟩
          · rintro ⟨hbx, _, hall⟩
            have hx2 : p₀.2 < x.2 := lt_of_lt_of_le hq₀gt (hall q₀ hq₀)
            exact ⟨hx2, hall⟩
      · rw [if_neg h]
        obtain ⟨q₀, hq₀mem, hq₀⟩ := hex
        have hq₀rest : q₀ ∈ rest := by
          rcases List.mem_cons.1 hq₀mem with rfl | hmem
          · exact absurd hq₀ h
          · exact hmem
        have hih := ih b ⟨q₀, hq₀rest, hq₀⟩
        rw [hih]
        have hpred : (decide (b.2 < p₀.2) &&
            (p₀ :: rest).all (fun q => decide (q.2 ≤ p₀.2))) = false := by
          rw [decide_eq_false h, Bool.false_and]
        rw [hpred]
        congr 1
        apply find?_congr_mem
        intro x hx
        rw [Bool.eq_iff_iff]
        simp only [Bool.and_eq_true, decide_eq_true_eq, List.all_eq_true,
          List.mem_cons, forall_eq_or_imp]
        constructor
        · rintro ⟨hbx, hall⟩
          have hx2 : b.2 < x.2 := lt_of_lt_of_le hq₀ (hall q₀ hq₀rest)
          have hp₀x : p₀.2 ≤ x.2 := le_trans (le_of_not_lt h) (le_of_lt hx2)
          exact ⟨hbx, hp₀x, hall⟩
        · rintro ⟨hbx, _, hall⟩
          exact ⟨hbx, hall⟩

theorem foldl_max_exists : ∀ (l : List (ℕ × ℚ)) (b c : ℚ),
    c < l.foldl (fun m p => max m p.2) b → c < b ∨ ∃ p ∈ l, c < p.2 := by
  intro l
  induction l with
  | nil => intro b c h; exact Or.inl h
  | cons p rest ih =>
      intro b c h
      rw [List.foldl_cons] at h
      rcases ih (max b p.2) c h with h' | ⟨q, hq, hq'⟩
      · rcases lt_max_iff.1 h' with h'' | h''
        · exact Or.inl h''
        · exact Or.inr ⟨p, List.mem_cons_self p rest, h''⟩
      · exact Or.inr ⟨q, List.mem_cons_of_mem p hq, hq'⟩

theorem find?_firstArgmax (l : List (ℕ × ℚ)) (hex : ∃ p ∈ l, (0 : ℚ) < p.2) :
    l.find? (fun p => decide ((0 : ℚ) < p.2) &&
      l.all (fun q => decide (q.2 ≤ p.2))) = firstArgmax l := by
  rw [firstArgmax]
  apply find?_congr_mem
  intro x hx
  rw [Bool.eq_iff_iff]
  simp only [Bool.and_eq_true, decide_eq_true_eq, List.all_eq_true]
  obtain ⟨q₀, hq₀, hq₀'⟩ := hex
  constructor
  · rintro ⟨_, hall⟩
    exact hall
  · intro hall
    exact ⟨lt_of_lt_of_le hq₀' (hall q₀ hq₀), hall⟩

/-- When the best score clears a positive threshold, the kept candidate id
is the first-seen highest-scoring candidate. -/
theorem scan_winner (P : PyStr) (w : SimilarityWeights) (store : LsrStore)
    (entry : RawLexicalEntry) (cands : List ℕ) (t : ℚ) (ht : 0 < t)
    (hscore : t ≤ (scanCandidates P w store entry cands).2.1) :
    (scanCandidates P w store entry cands).1 =
      (firstArgmax (scoredOf P w store entry cands)).map (fun p => p.1) := by
  have hpair : ((scanCandidates P w store entry cands).1,
      (scanCandidates P w store entry cands).2.1) =
      pairFold (none, 0) (scoredOf P w store entry cands) :=
    scan_to_pair P w store entry cands (none, 0, none)
  have h1 : (scanCandidates P w store entry cands).1 =
      (pairFold (none, 0) (scoredOf P w store entry cands)).1 :=
    congrArg Prod.fst hpair
  have h2 : (scanCandidates P w store entry cands).2.1 =
      (pairFold (none, 0) (scoredOf P w store entry cands)).2 :=
    congrArg Prod.snd hpair
  have hscore' : (0 : ℚ) < (pairFold (none, 0)
      (scoredOf P w store entry cands)).2 :=
    lt_of_lt_of_le ht (h2 ▸ hscore)
  rw [pairFold_score] at hscore'
  have hex : ∃ p ∈ scoredOf P w store entry cands, (0 : ℚ) < p.2 := by
    rcases foldl_max_exists (scoredOf P w store entry cands) 0 0 hscore' with
      h | h
    · exact absurd h (lt_irrefl 0)
    · exact h
  rw [h1, pairFold_max (scoredOf P w store entry cands) (none, 0) hex,
    find?_firstArgmax (scoredOf P w store entry cands) hex]

/-- C2.  With positive thresholds (the defaults are 0.95/0.85/0.70), for a
non-empty candidate set the returned `existing_id` is the first-seen
highest-scoring candidate exactly when the action is one of the three
match actions, and is cleared to `None` when the action is `CREATE_NEW` —
even if a sub-threshold candidate existed. -/
theorem claim2_best_match (P : PyStr) (cfg : ResolverConfig) (store : LsrStore)
    (entry : RawLexicalEntry) (candidates : List ℕ)
    (_hne : candidates ≠ [])
    (ha : 0 < cfg.auto_merge_threshold) (hm : 0 < cfg.merge_with_flag_threshold)
    (hr : 0 < cfg.review_threshold) :
    ((resolveOn P cfg store entry candidates).action ≠
        ResolutionAction.create_new →
      (resolveOn P cfg store entry candidates).existing_id =
        (firstArgmax (scoredOf P cfg.weights store entry candidates)).map
          (fun p => p.1)) ∧
    ((resolveOn P cfg store entry candidates).action =
        ResolutionAction.create_new →
      (resolveOn P cfg store entry candidates).existing_id = none) := by
  have hron := resolveOn_spec P cfg store entry candidates
    (scanCandidates P cfg.weights store entry candidates) rfl
  rw [hron]
  split_ifs with h1 h2 h3
  · exact ⟨fun _ => scan_winner P cfg.weights store entry candidates
        cfg.auto_merge_threshold ha h1,
      fun hcn => absurd hcn (by simp)⟩
  · exact ⟨fun _ => scan_winner P cfg.weights store entry candidates
        cfg.merge_with_flag_threshold hm h2,
      fun hcn => absurd hcn (by simp)⟩
  · exact ⟨fun _ => scan_winner P cfg.weights store entry candidates
        cfg.review_threshold hr h3,
      fun hcn => absurd hcn (by simp)⟩
  · exact ⟨fun hne' => absurd rfl hne', fun _ => rfl⟩

theorem scan_cons (P : PyStr) (w : SimilarityWeights) (store : LsrStore)
    (entry : RawLexicalEntry) (cid : ℕ) (cand : LSR) (rest : List ℕ)
    (best : Option ℕ × ℚ × Option Feats)
    (h : lookupStore store cid = some cand) :
    (cid :: rest).foldl (scanStep P w store entry) best =
      rest.foldl (scanStep P w store entry)
        (if best.2.1 < (calcSimilarity P w entry cand).1
         then (some cid, (calcSimilarity P w entry cand).1,
               some (calcSimilarity P w entry cand).2)
         else best) := by
  simp only [List.foldl_cons, scanStep, h]

theorem evalA_ff : formFuzzyFeature ("a".toList) ("b".toList) = 0 := by
  have h0 : levenshtein_distance ("a".toList) ("b".toList) = 1 := rfl
  simp only [formFuzzyFeature, h0, show ("a".toList).length = 1 from rfl,
    show ("b".toList).length = 1 from rfl]
  norm_num

theorem evalB_ff : formFuzzyFeature ("a".toList) ("a".toList) = 1 := by
  have h0 : levenshtein_distance ("a".toList) ("a".toList) = 0 := rfl
  simp only [formFuzzyFeature, h0, show ("a".toList).length = 1 from rfl]
  norm_num

theorem evalA_feat :
    calcSimilarity P0 ({} : ResolverConfig).weights entryC2 lsrA =
      (1/5, ⟨0, 0, 1/2, 1/2, 0⟩) := by
  have key : calcSimilarity P0 ({} : ResolverConfig).weights entryC2 lsrA =
      (0 * (3/10) + formFuzzyFeature ("a".toList) ("b".toList) * (2/10) +
        (1/2) * (3/10) + (1/2) * (1/10) + 0 * (1/10),
       ⟨0, formFuzzyFeature ("a".toList) ("b".toList), 1/2, 1/2, 0⟩) := rfl
  rw [key, evalA_ff]
  norm_num

theorem evalB_feat :
    calcSimilarity P0 ({} : ResolverConfig).weights entryC2 lsrB =
      (17/20, ⟨1, 1, 1/2, 1, 1⟩) := by
  have key : calcSimilarity P0 ({} : ResolverConfig).weights entryC2 lsrB =
      (1 * (3/10) + formFuzzyFeature ("a".toList) ("a".toList) * (2/10) +
        (1/2) * (3/10) + 1 * (1/10) + 1 * (1/10),
       ⟨1, formFuzzyFeature ("a".toList) ("a".toList), 1/2, 1, 1⟩) := rfl
  rw [key, evalB_ff]
  norm_num

theorem evalC2_scan :
    scanCandidates P0 ({} : ResolverConfig).weights storeC2 entryC2 [5, 7] =
      (some 7, 17/20, some ⟨1, 1, 1/2, 1, 1⟩) := by
  have h5 : lookupStore storeC2 5 = some lsrA := rfl
  have h7 : lookupStore storeC2 7 = some lsrB := rfl
  show ([5, 7] : List ℕ).foldl
    (scanStep P0 ({} : ResolverConfig).weights storeC2 entryC2)
    (none, 0, none) = _
  rw [scan_cons P0 ({} : ResolverConfig).weights storeC2 entryC2 5 lsrA [7]
    (none, 0, none) h5, evalA_feat]
  rw [if_pos (show ((none, 0, none) :
    Option ℕ × ℚ × Option Feats).2.1 < (((1:ℚ)/5, (⟨0, 0, 1/2, 1/2, 0⟩ : Feats))).1
    by norm_num)]
  rw [scan_cons P0 ({} : ResolverConfig).weights storeC2 entryC2 7 lsrB []
    (some 5, ((1:ℚ)/5, (⟨0, 0, 1/2, 1/2, 0⟩ : Feats)).1,
      some ((1:ℚ)/5, (⟨0, 0, 1/2, 1/2, 0⟩ : Feats)).2) h7, evalB_feat]
  rw [if_pos (show (some (5:ℕ), ((1:ℚ)/5, (⟨0, 0, 1/2, 1/2, 0⟩ : Feats)).1,
      some ((1:ℚ)/5, (⟨0, 0, 1/2, 1/2, 0⟩ : Feats)).2).2.1 <
      (((17:ℚ)/20, (⟨1, 1, 1/2, 1, 1⟩ : Feats))).1 by norm_num)]
  rfl

theorem claim2_witness :
    (resolveOn P0 {} storeC2 entryC2 [5, 7]).existing_id =
      (firstArgmax (scoredOf P0 ({} : ResolverConfig).weights storeC2 entryC2
        [5, 7])).map (fun p => p.1) := by
  have hron := resolveOn_spec P0 {} storeC2 entryC2 [5, 7] _ evalC2_scan
  have h1 : ({} : ResolverConfig).auto_merge_threshold = 95/100 := rfl
  have h2 : ({} : ResolverConfig).merge_with_flag_threshold = 85/100 := rfl
  have h3 : ({} : ResolverConfig).review_threshold = 70/100 := rfl
  rw [h1, h2, h3] at hron
  have hact : (resolveOn P0 {} storeC2 entryC2 [5, 7]).action ≠
      ResolutionAction.create_new := by
    rw [hron]
    norm_num
    decide
  exact (claim2_best_match P0 {} storeC2 entryC2 [5, 7] (by decide)
    (by rw [h1]; norm_num) (by rw [h2]; norm_num) (by rw [h3]; norm_num)).1 hact

end Lexicon
